import Mathlib

/-!
Verification of the DeepSeek chat front-end (`app.py`).

Shallow embedding: Python strings are modelled as `List Char`; the two core
functions `format_latex` and `chat_with_deepseek` are translated directly
from the source.  The external inference API is an opaque parameter of type
`List Message → Except (List Char) ApiResponse`; a Python exception raised
by the call becomes the `Except.error` case.  `os.getenv` results are
`Option (List Char)` (`none` = variable absent).
-/

set_option autoImplicit false

namespace DeepSeekApp

/-- Role tag of a chat message, as used in the dicts built by
`chat_with_deepseek`. -/
inductive Role where
  | user
  | assistant
deriving DecidableEq, Repr

/-- A role-tagged message: the dict with a role key and a content key
built by `chat_with_deepseek`. -/
structure Message where
  role : Role
  content : List Char
deriving DecidableEq, Repr

/-- Python truthiness of the `assistant` field in
`for human, assistant in history: ... if assistant:` —
`None` and the empty string are falsy, everything else truthy. -/
def isPresent : Option (List Char) → Bool
  | none => false
  | some a => !a.isEmpty

/-- Messages contributed by one history turn in the loop of
`chat_with_deepseek` (app.py lines 40–43): always the user message,
followed by the assistant message when `assistant` is truthy. -/
def turnMessages : List Char × Option (List Char) → List Message
  | (human, assistant) =>
    if isPresent assistant then
      [⟨Role.user, human⟩, ⟨Role.assistant, assistant.getD []⟩]
    else
      [⟨Role.user, human⟩]

/-- The message list assembled by `chat_with_deepseek` (app.py lines 39–44):
the per-turn messages of every history entry in order, then one final
user message carrying the new input. -/
def assembleMessages : List (List Char × Option (List Char)) → List Char → List Message
  | [], message => [⟨Role.user, message⟩]
  | turn :: rest, message => turnMessages turn ++ assembleMessages rest message

/-- Number of history turns whose assistant text is present and non-empty. -/
def presentCount (history : List (List Char × Option (List Char))) : Nat :=
  history.countP (fun t => isPresent t.2)

/-- Number of history turns whose assistant text is absent or empty. -/
def absentCount (history : List (List Char × Option (List Char))) : Nat :=
  history.countP (fun t => !isPresent t.2)

/-- Python membership test of the pass-through guard (app.py line 24):
does the line contain two adjacent dollar signs? -/
def containsDD : List Char → Bool
  | [] => false
  | [_] => false
  | a :: b :: rest => (a == '$' && b == '$') || containsDD (b :: rest)

/-- The character scan of `format_latex` (app.py lines 27–34).  `prev` is
the character at the previous index of the *original* line (`line[i-1]`,
`none` at index 0) and `inMath` is the `in_math` flag: a dollar sign not
immediately preceded by a backslash toggles the flag and is emitted as a
double dollar (the same marker in both toggle directions, exactly as in
the source conditional expression); every other character is copied
verbatim. -/
def scanLine : Option Char → Bool → List Char → List Char
  | _, _, [] => []
  | prev, inMath, c :: cs =>
    if c == '$' && prev != some '\\' then
      '$' :: '$' :: scanLine (some c) (!inMath) cs
    else
      c :: scanLine (some c) inMath cs

/-- Per-line processing of `format_latex` (app.py lines 24–35): a line
already containing a double dollar is passed through unchanged, otherwise
it is scanned with the flag initially false. -/
def formatLine (line : List Char) : List Char :=
  if containsDD line then line else scanLine none false line

/-- Python `text.split` on a newline character (app.py line 21): split on
every newline occurrence; the empty text yields one empty line. -/
def splitLines (text : List Char) : List (List Char) :=
  text.splitOn '\n'

/-- Modelled from the spec (§4.2 steps 3–5), for comparison with the scan
of `format_latex`: scan the line character by character; a dollar sign that
is not immediately preceded by a backslash is emitted as the double-dollar
marker, every other character (including an escaped dollar) is copied
verbatim. -/
def specInlineConvert : Option Char → List Char → List Char
  | _, [] => []
  | prev, c :: cs =>
    if c = '$' ∧ prev ≠ some '\\' then
      '$' :: '$' :: specInlineConvert (some c) cs
    else
      c :: specInlineConvert (some c) cs

/-- `format_latex` (app.py lines 19–36) on the character-list model:
split on newlines, format each line, rejoin with newlines. -/
def format_latex (text : List Char) : List Char :=
  List.intercalate ['\n'] ((splitLines text).map formatLine)

/-- The fields of the API response consumed by `chat_with_deepseek`
(app.py lines 51–52): the reasoning segment and the answer segment of
the first choice. -/
structure ApiResponse where
  reasoning_content : List Char
  content : List Char

/-- `chat_with_deepseek` (app.py lines 38–55).  The external
`client.chat.completions.create` call is an opaque parameter `create`;
a Python exception raised by it is the `Except.error` case, carrying the
exception message.  On success the two response segments are formatted and
combined under the two labels; on failure the error string is returned —
the function is total, so no failure propagates. -/
def chat_with_deepseek (message : List Char)
    (history : List (List Char × Option (List Char)))
    (create : List Message → Except (List Char) ApiResponse) : List Char :=
  let messages := assembleMessages history message
  match create messages with
  | Except.ok response =>
      let reasoning := format_latex response.reasoning_content
      let answer := format_latex response.content
      "🤔 Reasoning:\n".toList ++ reasoning ++
        "\n\n📝 Answer:\n".toList ++ answer
  | Except.error e => "Error: ".toList ++ e

/-- The startup credential check (app.py lines 16–17): raise a
`ValueError` when the environment variable is falsy.  `none` models an
absent variable; Python `not` is true on `None` and on the empty
string. -/
def apiKeyCheck (key : Option (List Char)) : Except (List Char) Unit :=
  if isPresent key then
    Except.ok ()
  else
    Except.error
      "DEEPSEEK_API_KEY environment variable is not set. Please check your .env file.".toList

theorem turnMessages_length (t : List Char × Option (List Char)) :
    (turnMessages t).length = if isPresent t.2 then 2 else 1 := by
  obtain ⟨h, a⟩ := t
  by_cases hp : isPresent a <;> simp [turnMessages, hp]

/-- C1: For every history H and new message M, the assembled message list
has length `2*k + a + 1` where `k` counts prior turns with a present
(non-empty) assistant text and `a` counts the remaining prior turns. -/
theorem assembleMessages_length
    (H : List (List Char × Option (List Char))) (M : List Char) :
    (assembleMessages H M).length = 2 * presentCount H + absentCount H + 1 := by
  induction H with
  | nil => simp [assembleMessages, presentCount, absentCount]
  | cons t rest ih =>
      simp only [assembleMessages, List.length_append, ih,
        turnMessages_length, presentCount, absentCount, List.countP_cons]
      by_cases hp : isPresent t.2 <;> simp [hp] <;> omega

theorem isPresent_getD (oa : Option (List Char)) (h : isPresent oa = true) :
    oa = some (oa.getD []) := by
  cases oa with
  | none => simp [isPresent] at h
  | some a => rfl

theorem turnMessages_of_present (u : List Char) (oa : Option (List Char))
    (hp : isPresent oa = true) :
    turnMessages (u, oa) = [⟨Role.user, u⟩, ⟨Role.assistant, oa.getD []⟩] := by
  simp [turnMessages, hp]

theorem turnMessages_of_absent (u : List Char) (oa : Option (List Char))
    (hp : isPresent oa = false) :
    turnMessages (u, oa) = [⟨Role.user, u⟩] := by
  simp [turnMessages, hp]

theorem assembleMessages_assistant_prev
    (H : List (List Char × Option (List Char))) (M : List Char) :
    ∀ (j : Nat) (msg : Message),
      (assembleMessages H M)[j]? = some msg → msg.role = Role.assistant →
      ∃ prev : Message, (assembleMessages H M)[j - 1]? = some prev ∧
        prev.role = Role.user ∧ (prev.content, some msg.content) ∈ H := by
  induction H with
  | nil =>
      intro j msg hj hrole
      rcases j with - | j
      · simp only [assembleMessages, List.getElem?_cons_zero,
          Option.some.injEq] at hj
        rw [← hj] at hrole
        simp at hrole
      · simp [assembleMessages] at hj
  | cons t rest ih =>
      obtain ⟨u, oa⟩ := t
      intro j msg hj hrole
      by_cases hp : isPresent oa
      · rw [show assembleMessages ((u, oa) :: rest) M =
              ⟨Role.user, u⟩ :: ⟨Role.assistant, oa.getD []⟩ ::
                assembleMessages rest M from by
            rw [assembleMessages, turnMessages_of_present u oa hp]; rfl] at hj ⊢
        rcases j with - | j
        · simp only [List.getElem?_cons_zero, Option.some.injEq] at hj
          rw [← hj] at hrole
          simp at hrole
        · rcases j with - | k
          · simp only [List.getElem?_cons_succ, List.getElem?_cons_zero,
              Option.some.injEq] at hj
            refine ⟨⟨Role.user, u⟩, by simp, rfl, ?_⟩
            rw [← hj]
            have : ((u, some (oa.getD [])) : List Char × Option (List Char)) ∈
                (u, oa) :: rest := by
              rw [← isPresent_getD oa hp]; exact List.mem_cons_self _ _
            exact this
          · simp only [List.getElem?_cons_succ] at hj
            obtain ⟨prev, hprev, hrole', hmem⟩ := ih k msg hj hrole
            rcases k with - | m
            · rw [hprev] at hj
              rw [Option.some.injEq] at hj
              rw [hj] at hrole'
              rw [hrole'] at hrole
              simp at hrole
            · refine ⟨prev, ?_, hrole', List.mem_cons_of_mem _ hmem⟩
              simpa using hprev
      · rw [show assembleMessages ((u, oa) :: rest) M =
              ⟨Role.user, u⟩ :: assembleMessages rest M from by
            rw [assembleMessages, turnMessages_of_absent u oa]; rfl
            simpa using hp] at hj ⊢
        rcases j with - | k
        · simp only [List.getElem?_cons_zero, Option.some.injEq] at hj
          rw [← hj] at hrole
          simp at hrole
        · simp only [List.getElem?_cons_succ] at hj
          obtain ⟨prev, hprev, hrole', hmem⟩ := ih k msg hj hrole
          rcases k with - | m
          · rw [hprev] at hj
            rw [Option.some.injEq] at hj
            rw [hj] at hrole'
            rw [hrole'] at hrole
            simp at hrole
          · refine ⟨prev, ?_, hrole', List.mem_cons_of_mem _ hmem⟩
            simpa using hprev

theorem assembleMessages_getLast
    (H : List (List Char × Option (List Char))) (M : List Char) :
    (assembleMessages H M).getLast? = some ⟨Role.user, M⟩ := by
  induction H with
  | nil => rfl
  | cons t rest ih =>
      rw [assembleMessages, List.getLast?_append, ih]
      simp [ih]

/-- C2: The assembled sequence preserves chronological role structure:
every assistant-role message immediately follows the user-role message of
its own turn (the adjacent pair of contents is a turn of the history), the
last message is always a user-role message carrying the new input, and on
the history `[("Hi", "Hello!")]` with new message `"What is 2+2?"` the
output is exactly `[user:"Hi", assistant:"Hello!", user:"What is 2+2?"]`. -/
theorem assembleMessages_structure :
    (∀ (H : List (List Char × Option (List Char))) (M : List Char)
        (j : Nat) (msg : Message),
      (assembleMessages H M)[j]? = some msg → msg.role = Role.assistant →
      ∃ prev : Message, (assembleMessages H M)[j - 1]? = some prev ∧
        prev.role = Role.user ∧ (prev.content, some msg.content) ∈ H) ∧
    (∀ (H : List (List Char × Option (List Char))) (M : List Char),
      (assembleMessages H M).getLast? = some ⟨Role.user, M⟩) ∧
    assembleMessages [("Hi".toList, some "Hello!".toList)] "What is 2+2?".toList =
      [⟨Role.user, "Hi".toList⟩, ⟨Role.assistant, "Hello!".toList⟩,
       ⟨Role.user, "What is 2+2?".toList⟩] :=
  ⟨assembleMessages_assistant_prev, assembleMessages_getLast, by decide⟩

/-- Witness for C2: the universally quantified parts instantiated on the
concrete example history, with the hypotheses discharged by evaluation. -/
theorem assembleMessages_structure_witness :
    (∃ prev : Message,
      (assembleMessages [("Hi".toList, some "Hello!".toList)]
          "What is 2+2?".toList)[1 - 1]? = some prev ∧
        prev.role = Role.user ∧
        (prev.content, some "Hello!".toList) ∈
          [("Hi".toList, some "Hello!".toList)]) ∧
    (assembleMessages [("Hi".toList, some "Hello!".toList)]
        "What is 2+2?".toList).getLast? = some ⟨Role.user, "What is 2+2?".toList⟩ :=
  ⟨assembleMessages_structure.1 [("Hi".toList, some "Hello!".toList)]
      "What is 2+2?".toList 1 ⟨Role.assistant, "Hello!".toList⟩
      (by decide) rfl,
    assembleMessages_structure.2.1 [("Hi".toList, some "Hello!".toList)]
      "What is 2+2?".toList⟩

theorem splitLines_ne_nil (cs : List Char) : splitLines cs ≠ [] := by
  rw [splitLines, List.splitOn]
  exact List.splitOnP_ne_nil _ cs

theorem splitLines_of_no_newline (l : List Char) (h : '\n' ∉ l) :
    splitLines l = [l] := by
  rw [splitLines, List.splitOn]
  exact List.splitOnP_eq_single _ _ fun x hx hbeq => h (eq_of_beq hbeq ▸ hx)

theorem not_newline_mem_splitLines (cs : List Char) :
    ∀ l ∈ splitLines cs, '\n' ∉ l := by
  rw [splitLines, List.splitOn]
  induction cs with
  | nil =>
      intro l hl
      simp only [List.splitOnP_nil, List.mem_singleton] at hl
      subst hl
      exact List.not_mem_nil _
  | cons c cs ih =>
      intro l hl
      rw [List.splitOnP_cons] at hl
      by_cases hc : c = '\n'
      · subst hc
        rw [if_pos (by simp)] at hl
        rcases List.mem_cons.mp hl with h | h
        · subst h; exact List.not_mem_nil _
        · exact ih l h
      · rw [if_neg (by simp [hc])] at hl
        rcases hsp : List.splitOnP (fun x => x == '\n') cs with - | ⟨hd, tl⟩
        · exact absurd hsp (List.splitOnP_ne_nil _ cs)
        · rw [hsp, List.modifyHead] at hl
          rcases List.mem_cons.mp hl with h | h
          · subst h
            intro hmem
            rcases List.mem_cons.mp hmem with h' | h'
            · exact hc h'.symm
            · exact ih hd (hsp ▸ List.mem_cons_self hd tl) h'
          · exact ih l (hsp ▸ List.mem_cons_of_mem hd h)

theorem length_splitLines (cs : List Char) :
    (splitLines cs).length = cs.count '\n' + 1 := by
  rw [splitLines, List.splitOn]
  induction cs with
  | nil => simp
  | cons c cs ih =>
      rw [List.splitOnP_cons, List.count_cons]
      by_cases hc : c = '\n'
      · subst hc
        rw [if_pos (by simp), if_pos (by simp)]
        simp [ih]
      · rw [if_neg (by simp [hc]), if_neg (by simp [hc])]
        rcases hsp : List.splitOnP (fun x => x == '\n') cs with - | ⟨hd, tl⟩
        · exact absurd hsp (List.splitOnP_ne_nil _ cs)
        · rw [hsp] at ih
          simpa [List.modifyHead] using ih

theorem intercalate_singleton_list (sep x : List Char) :
    List.intercalate sep [x] = x := by
  simp [List.intercalate]

theorem mem_scanLine (l : List Char) :
    ∀ (prev : Option Char) (b : Bool) (c : Char),
      c ∈ scanLine prev b l → c ∈ l ∨ c = '$' := by
  induction l with
  | nil =>
      intro prev b c h
      rw [scanLine] at h
      exact absurd h (List.not_mem_nil c)
  | cons a cs ih =>
      intro prev b c h
      rw [scanLine] at h
      by_cases ha : (a == '$' && prev != some '\\') = true
      · rw [if_pos ha] at h
        rcases List.mem_cons.mp h with h' | h'
        · exact Or.inr h'
        rcases List.mem_cons.mp h' with h'' | h''
        · exact Or.inr h''
        · rcases ih _ _ _ h'' with h3 | h3
          · exact Or.inl (List.mem_cons_of_mem a h3)
          · exact Or.inr h3
      · rw [if_neg ha] at h
        rcases List.mem_cons.mp h with h' | h'
        · exact Or.inl (h' ▸ List.mem_cons_self a cs)
        · rcases ih _ _ _ h' with h3 | h3
          · exact Or.inl (List.mem_cons_of_mem a h3)
          · exact Or.inr h3

theorem scanLine_no_newline (l : List Char) (prev : Option Char) (b : Bool)
    (h : '\n' ∉ l) : '\n' ∉ scanLine prev b l := by
  intro hmem
  rcases mem_scanLine l prev b '\n' hmem with h' | h'
  · exact h h'
  · exact absurd h' (by decide)

theorem formatLine_no_newline (l : List Char) (h : '\n' ∉ l) :
    '\n' ∉ formatLine l := by
  rw [formatLine]
  by_cases hd : containsDD l = true
  · rw [if_pos hd]; exact h
  · rw [if_neg hd]; exact scanLine_no_newline l none false h

theorem splitLines_format_latex (text : List Char) :
    splitLines (format_latex text) = (splitLines text).map formatLine := by
  rw [format_latex, splitLines, ← splitLines]
  refine List.splitOn_intercalate _ '\n' ?_ ?_
  · intro l hl
    rcases List.mem_map.mp hl with ⟨l', hl', rfl⟩
    exact formatLine_no_newline l' (not_newline_mem_splitLines text l' hl')
  · rw [Ne, List.map_eq_nil_iff]
    exact splitLines_ne_nil text

theorem dollar_mem_of_containsDD (l : List Char) (h : containsDD l = true) :
    '$' ∈ l := by
  induction l with
  | nil => rw [containsDD] at h; exact absurd h (by decide)
  | cons a cs ih =>
      cases cs with
      | nil => rw [containsDD] at h; exact absurd h (by decide)
      | cons b rest =>
          rw [containsDD, Bool.or_eq_true, Bool.and_eq_true, beq_iff_eq,
            beq_iff_eq] at h
          rcases h with ⟨ha, -⟩ | h'
          · exact List.mem_cons.mpr (Or.inl ha.symm)
          · exact List.mem_cons_of_mem a (ih h')

theorem containsDD_eq_false_of_no_dollar (l : List Char) (h : '$' ∉ l) :
    containsDD l = false := by
  cases hd : containsDD l
  · rfl
  · exact absurd (dollar_mem_of_containsDD l hd) h

theorem scanLine_of_no_dollar (l : List Char) :
    ∀ (prev : Option Char) (b : Bool), '$' ∉ l → scanLine prev b l = l := by
  induction l with
  | nil => intro prev b _; rfl
  | cons c cs ih =>
      intro prev b h
      have hc : c ≠ '$' := fun he => h (he ▸ List.mem_cons_self c cs)
      rw [scanLine, if_neg (by simp [hc])]
      rw [ih (some c) b fun hm => h (List.mem_cons_of_mem c hm)]

theorem containsDD_cons_of_containsDD (c : Char) (t : List Char)
    (h : containsDD t = true) : containsDD (c :: t) = true := by
  cases t with
  | nil => rw [containsDD] at h; exact absurd h (by decide)
  | cons b rest => rw [containsDD, h, Bool.or_true]

theorem scanLine_eq_or_containsDD (l : List Char) :
    ∀ (prev : Option Char) (b : Bool),
      scanLine prev b l = l ∨ containsDD (scanLine prev b l) = true := by
  induction l with
  | nil => intro prev b; exact Or.inl rfl
  | cons c cs ih =>
      intro prev b
      by_cases hc : (c == '$' && prev != some '\\') = true
      · right
        rw [scanLine, if_pos hc, containsDD]
        simp
      · rw [scanLine, if_neg hc]
        rcases ih (some c) b with h | h
        · exact Or.inl (by rw [h])
        · exact Or.inr (containsDD_cons_of_containsDD c _ h)

theorem formatLine_idem (l : List Char) :
    formatLine (formatLine l) = formatLine l := by
  by_cases hd : containsDD l = true
  · have h1 : formatLine l = l := by rw [formatLine, if_pos hd]
    rw [h1, h1]
  · have h1 : formatLine l = scanLine none false l := by rw [formatLine, if_neg hd]
    rcases scanLine_eq_or_containsDD l none false with h | h
    · rw [h1, h, h1, h]
    · rw [h1, formatLine, if_pos h]

theorem scanLine_eq_specInlineConvert (l : List Char) :
    ∀ (prev : Option Char) (b : Bool),
      scanLine prev b l = specInlineConvert prev l := by
  induction l with
  | nil => intro prev b; rfl
  | cons c cs ih =>
      intro prev b
      have hiff : ((c == '$' && prev != some '\\') = true) ↔
          (c = '$' ∧ prev ≠ some '\\') := by simp
      rw [scanLine, specInlineConvert]
      by_cases hc : c = '$' ∧ prev ≠ some '\\'
      · rw [if_pos (hiff.mpr hc), if_pos hc, ih]
      · rw [if_neg (mt hiff.mp hc), if_neg hc, ih]

theorem format_latex_single_line (l : List Char) (h : '\n' ∉ l) :
    format_latex l = formatLine l := by
  rw [format_latex, splitLines_of_no_newline l h, List.map_cons, List.map_nil,
    intercalate_singleton_list]

/-- C3: on a line without a double dollar, the per-line processing of
`format_latex` replaces exactly the dollar signs not immediately preceded
by a backslash in the original line with the double-dollar marker and
copies every other character verbatim (the behaviour of the spec-side scan
`specInlineConvert`); in particular the line "The value $x$ is positive"
becomes "The value $$x$$ is positive". -/
theorem formatLine_eq_specInlineConvert :
    (∀ l : List Char, containsDD l = false →
      formatLine l = specInlineConvert none l) ∧
    formatLine "The value $x$ is positive".toList =
      "The value $$x$$ is positive".toList := by
  constructor
  · intro l hd
    rw [formatLine, if_neg (by simp [hd])]
    exact scanLine_eq_specInlineConvert l none false
  · decide

/-- Witness for C3: the general part evaluated on the concrete line
"a$b". -/
theorem formatLine_eq_specInlineConvert_witness :
    containsDD "a$b".toList = false ∧
    formatLine "a$b".toList = specInlineConvert none "a$b".toList :=
  ⟨by decide, formatLine_eq_specInlineConvert.1 "a$b".toList (by decide)⟩

/-- C4: a line that already contains a double dollar is passed through by
`format_latex` unchanged, so applying `format_latex` twice to it equals
applying it once; in particular the line with existing block math
"$$x^2$$ is a square" is returned unchanged. -/
theorem format_latex_passthrough :
    (∀ l : List Char, '\n' ∉ l → containsDD l = true →
      format_latex l = l ∧ format_latex (format_latex l) = format_latex l) ∧
    format_latex "$$x^2$$ is a square".toList =
      "$$x^2$$ is a square".toList := by
  constructor
  · intro l hn hd
    have h1 : format_latex l = l := by
      rw [format_latex_single_line l hn, formatLine, if_pos hd]
    exact ⟨h1, by rw [h1, h1]⟩
  · decide

/-- Witness for C4: the general part evaluated on the concrete line
"$$x". -/
theorem format_latex_passthrough_witness :
    ('\n' ∉ "$$x".toList) ∧ containsDD "$$x".toList = true ∧
    format_latex "$$x".toList = "$$x".toList ∧
    format_latex (format_latex "$$x".toList) = format_latex "$$x".toList :=
  ⟨by decide, by decide,
    (format_latex_passthrough.1 "$$x".toList (by decide) (by decide)).1,
    (format_latex_passthrough.1 "$$x".toList (by decide) (by decide)).2⟩

/-- C5: a dollar sign immediately preceded by a backslash is copied
verbatim by the scan of `format_latex` and leaves the math-span flag
unchanged; in particular the text "Price: \$5" is formatted with the
literal substring "\$5" intact. -/
theorem scanLine_escaped_dollar :
    (∀ (prev : Option Char) (b : Bool) (cs : List Char),
      scanLine prev b ('\\' :: '$' :: cs) =
        '\\' :: '$' :: scanLine (some '$') b cs) ∧
    ∃ s t : List Char,
      s ++ "\\$5".toList ++ t = format_latex "Price: \\$5".toList := by
  exact ⟨fun prev b cs => rfl, "Price: ".toList, [], by decide⟩

/-- C6: whenever the API call fails, `chat_with_deepseek` returns the
display string made of "Error: " followed by the failure message instead
of propagating the failure (the embedding is a total function, so nothing
escapes the orchestration boundary); in particular a "timeout" failure
produces exactly the string "Error: timeout". -/
theorem chat_with_deepseek_error :
    (∀ (message : List Char)
        (history : List (List Char × Option (List Char)))
        (create : List Message → Except (List Char) ApiResponse)
        (e : List Char),
      create (assembleMessages history message) = Except.error e →
      chat_with_deepseek message history create = "Error: ".toList ++ e) ∧
    chat_with_deepseek "hi".toList []
        (fun _ => Except.error "timeout".toList) = "Error: timeout".toList := by
  constructor
  · intro message history create e h
    rw [chat_with_deepseek]
    simp only [h]
  · decide

/-- Witness for C6: the general part instantiated with a call that always
fails with message "timeout". -/
theorem chat_with_deepseek_error_witness :
    ((fun _ : List Message =>
        (Except.error "timeout".toList : Except (List Char) ApiResponse))
      (assembleMessages [] "hi".toList) = Except.error "timeout".toList) ∧
    chat_with_deepseek "hi".toList []
        (fun _ => Except.error "timeout".toList) =
      "Error: ".toList ++ "timeout".toList :=
  ⟨rfl, chat_with_deepseek_error.1 "hi".toList []
    (fun _ => Except.error "timeout".toList) "timeout".toList rfl⟩

/-- C7 counterexample: a credential that is present in the environment but
equal to the empty string still makes the startup check raise, so presence
alone does not let startup proceed. -/
theorem apiKeyCheck_present_empty_raises :
    (some "".toList : Option (List Char)) ≠ none ∧
    apiKeyCheck (some "".toList) ≠ Except.ok () := by
  refine ⟨Option.some_ne_none _, fun h => ?_⟩
  have hv : isPresent (some "".toList) = false := by decide
  rw [apiKeyCheck, hv] at h
  simp at h

/-- C7 (amended): if the credential environment variable is absent the
startup check raises the descriptive error before any request is served,
and if it is present and non-empty the check passes without raising. -/
theorem apiKeyCheck_amended :
    apiKeyCheck none = Except.error
      ("DEEPSEEK_API_KEY environment variable is not set. " ++
        "Please check your .env file.").toList ∧
    (∀ s : List Char, s ≠ [] → apiKeyCheck (some s) = Except.ok ()) := by
  refine ⟨rfl, fun s hs => ?_⟩
  rw [apiKeyCheck, if_pos]
  simp [isPresent, List.isEmpty_iff, hs]

/-- Witness for C7 (amended): the non-empty credential "x" passes the
startup check. -/
theorem apiKeyCheck_amended_witness :
    ("x".toList : List Char) ≠ [] ∧ apiKeyCheck (some "x".toList) = Except.ok () :=
  ⟨by decide, apiKeyCheck_amended.2 "x".toList (by decide)⟩

/-- C8: `format_latex` splits on newlines, transforms each line
independently with the per-line formatter and rejoins with newline, so the
output has the same newline count and the same number of lines as the
input; a line with no dollar sign at all is returned unchanged. -/
theorem format_latex_line_structure :
    (∀ text : List Char,
      splitLines (format_latex text) = (splitLines text).map formatLine) ∧
    (∀ text : List Char,
      (format_latex text).count '\n' = text.count '\n') ∧
    (∀ text : List Char,
      (splitLines (format_latex text)).length = (splitLines text).length) ∧
    (∀ l : List Char, '\n' ∉ l → '$' ∉ l → format_latex l = l) := by
  have hlen : ∀ text : List Char,
      (splitLines (format_latex text)).length = (splitLines text).length := by
    intro text
    rw [splitLines_format_latex, List.length_map]
  refine ⟨splitLines_format_latex, fun text => ?_, hlen, fun l hn hd => ?_⟩
  · have h1 := length_splitLines (format_latex text)
    have h2 := length_splitLines text
    have h3 := hlen text
    omega
  · rw [format_latex_single_line l hn, formatLine,
      if_neg (by simp [containsDD_eq_false_of_no_dollar l hd])]
    exact scanLine_of_no_dollar l none false hd

/-- Witness for C8: the quantified parts evaluated on the concrete text
"ab" (one line, no dollar signs). -/
theorem format_latex_line_structure_witness :
    splitLines (format_latex "ab".toList) =
      (splitLines "ab".toList).map formatLine ∧
    (format_latex "ab".toList).count '\n' = ("ab".toList).count '\n' ∧
    ('\n' ∉ "ab".toList) ∧ ('$' ∉ "ab".toList) ∧
    format_latex "ab".toList = "ab".toList :=
  ⟨format_latex_line_structure.1 "ab".toList,
    format_latex_line_structure.2.1 "ab".toList,
    by decide, by decide,
    format_latex_line_structure.2.2.2 "ab".toList (by decide) (by decide)⟩

/-- C9: `format_latex` is idempotent on every input text: a line in which
a conversion occurred contains the double-dollar marker afterwards and is
passed through on the second application, and every other line is a fixed
point. -/
theorem format_latex_idem (text : List Char) :
    format_latex (format_latex text) = format_latex text := by
  conv_lhs => rw [format_latex, splitLines_format_latex, List.map_map]
  rw [show formatLine ∘ formatLine = formatLine from funext formatLine_idem,
    format_latex]

/-- C10: the escape test of the scan inspects only the single character at
the previous index of the original line: a dollar right after a backslash
is never converted, even when that backslash is itself preceded by another
backslash (the concrete three-character line backslash-backslash-dollar is
left unchanged), while a dollar at index 0 is always converted and toggles
the flag from false to true. -/
theorem scanLine_escape_single_char :
    (∀ (b : Bool) (cs : List Char),
      scanLine (some '\\') b ('$' :: cs) = '$' :: scanLine (some '$') b cs) ∧
    (∀ cs : List Char, containsDD ('$' :: cs) = false →
      formatLine ('$' :: cs) = '$' :: '$' :: scanLine (some '$') true cs) ∧
    formatLine "\\\\$".toList = "\\\\$".toList := by
  refine ⟨fun b cs => rfl, fun cs h => ?_, by decide⟩
  rw [formatLine, if_neg (by simp [h])]
  rfl

/-- Witness for C10: the hypothesis-bearing part evaluated on the
concrete line "$x". -/
theorem scanLine_escape_single_char_witness :
    containsDD ('$' :: "x".toList) = false ∧
    formatLine ('$' :: "x".toList) =
      '$' :: '$' :: scanLine (some '$') true "x".toList :=
  ⟨by decide, scanLine_escape_single_char.2.1 "x".toList (by decide)⟩

end DeepSeekApp
